import Mathlib

/-!
Verification of the chess rules engine and adversarial search module
(src/lib/chess.ts and src/lib/chessAI.ts).

Shallow embedding conventions:
- JS numbers used as board indices are modelled as Int; scores are modelled
  as rationals (all score arithmetic in the source stays on exactly
  representable values), extended with the two JS infinities by the type
  Score, defined as WithBot (WithTop Rat).
- A JS array access a[i] yields undefined out of range; we model element
  lookup with jsGet, returning none out of range.  The one place where the
  source can throw a TypeError (indexing a second time into an undefined
  row, board[row][col] with row out of range in getValidMoves) is modelled
  with Except.
- Boards are lists of lists of optional pieces, exactly the JS
  representation; copyBoard performs the (pure-value) deep copy of the
  source, which is the identity on immutable values.
-/

inductive PieceType where
  | pawn | knight | bishop | rook | queen | king
deriving DecidableEq, Repr

inductive Color where
  | white | black
deriving DecidableEq, Repr

structure Piece where
  type : PieceType
  color : Color
deriving DecidableEq, Repr

/-- Position record; row and col are JS numbers (integers in all uses). -/
structure Position where
  row : Int
  col : Int
deriving DecidableEq, Repr

/-- Move record from chess.ts; src and dst are the JS fields from and to
(renamed because those words are Lean keywords).  The optional fields are
present in the source's shape but never populated by move generation. -/
structure Move where
  src : Position
  dst : Position
  piece : Piece
  captured : Option Piece
  isEnPassant : Option Bool
  isCastling : Option Bool
  promotion : Option PieceType
deriving DecidableEq

abbrev Board := List (List (Option Piece))

/-- JS array read a[i]: undefined (none) outside the index range. -/
def jsGet {α : Type} (l : List α) (i : Int) : Option α :=
  if i < 0 then none else l[i.toNat]?

/-- board[row][col], conflating an undefined row/cell and a null cell into
none; the sole source location that distinguishes the two (the throwing
row read in getValidMoves) is modelled separately there. -/
def getSquare (b : Board) (row col : Int) : Option Piece :=
  ((jsGet b row).bind (fun r => jsGet r col)).join

/-- board[row][col] = v.  All source call sites write to in-range squares
of an 8x8 board; out-of-range writes are modelled as no-ops. -/
def setSquare (b : Board) (row col : Int) (v : Option Piece) : Board :=
  if row < 0 ∨ col < 0 then b
  else b.set row.toNat (((b[row.toNat]?).getD []).set col.toNat v)

/-- The board is the 8x8 grid promised by the data model. -/
def boardWF (b : Board) : Prop :=
  b.length = 8 ∧ ∀ r ∈ b, r.length = 8

instance (b : Board) : Decidable (boardWF b) := by unfold boardWF; infer_instance

def INITIAL_BOARD : Board :=
  [ [ some ⟨PieceType.rook, Color.black⟩, some ⟨PieceType.knight, Color.black⟩,
      some ⟨PieceType.bishop, Color.black⟩, some ⟨PieceType.queen, Color.black⟩,
      some ⟨PieceType.king, Color.black⟩, some ⟨PieceType.bishop, Color.black⟩,
      some ⟨PieceType.knight, Color.black⟩, some ⟨PieceType.rook, Color.black⟩ ],
    List.replicate 8 (some ⟨PieceType.pawn, Color.black⟩),
    List.replicate 8 none,
    List.replicate 8 none,
    List.replicate 8 none,
    List.replicate 8 none,
    List.replicate 8 (some ⟨PieceType.pawn, Color.white⟩),
    [ some ⟨PieceType.rook, Color.white⟩, some ⟨PieceType.knight, Color.white⟩,
      some ⟨PieceType.bishop, Color.white⟩, some ⟨PieceType.queen, Color.white⟩,
      some ⟨PieceType.king, Color.white⟩, some ⟨PieceType.bishop, Color.white⟩,
      some ⟨PieceType.knight, Color.white⟩, some ⟨PieceType.rook, Color.white⟩ ] ]

def isValidPosition (pos : Position) : Prop :=
  0 ≤ pos.row ∧ pos.row < 8 ∧ 0 ≤ pos.col ∧ pos.col < 8

instance (pos : Position) : Decidable (isValidPosition pos) := by
  unfold isValidPosition; infer_instance

/-- copyBoard: a fresh deep copy of the board; the identity on the pure
values of this model. -/
def copyBoard (board : Board) : Board :=
  board.map (fun row => row.map (fun piece => piece))

def opposite (c : Color) : Color :=
  match c with
  | Color.white => Color.black
  | Color.black => Color.white

def getPawnMoves (b : Board) (frm : Position) (color : Color)
    (lastMove : Option Move) : List Position :=
  let direction : Int := if color = Color.white then -1 else 1
  let startRow : Int := if color = Color.white then 6 else 1
  let forward : Position := ⟨frm.row + direction, frm.col⟩
  let forwardMoves :=
    if isValidPosition forward ∧ getSquare b forward.row forward.col = none then
      forward ::
        (if frm.row = startRow ∧
            getSquare b (frm.row + 2 * direction) frm.col = none then
          [(⟨frm.row + 2 * direction, frm.col⟩ : Position)]
        else [])
    else []
  let captureMoves := ([-1, 1] : List Int).flatMap (fun colOffset =>
    let capture : Position := ⟨frm.row + direction, frm.col + colOffset⟩
    if isValidPosition capture then
      (match getSquare b capture.row capture.col with
       | some target => if target.color ≠ color then [capture] else []
       | none => []) ++
      (match lastMove with
       | some lm =>
         if lm.piece.type = PieceType.pawn ∧
            (lm.src.row - lm.dst.row).natAbs = 2 ∧
            lm.dst.row = frm.row ∧ lm.dst.col = capture.col then
           [capture]
         else []
       | none => [])
    else [])
  forwardMoves ++ captureMoves

def knightOffsets : List (Int × Int) :=
  [(-2, -1), (-2, 1), (-1, -2), (-1, 2), (1, -2), (1, 2), (2, -1), (2, 1)]

def getKnightMoves (b : Board) (frm : Position) (color : Color) : List Position :=
  knightOffsets.filterMap (fun o =>
    let dest : Position := ⟨frm.row + o.1, frm.col + o.2⟩
    if isValidPosition dest then
      match getSquare b dest.row dest.col with
      | none => some dest
      | some target => if target.color ≠ color then some dest else none
    else none)

/-- One ray of getDirectionalMoves: the while loop walking away from the
source square.  The loop runs while the square is on the board, so from
any on-board starting square at most 7 iterations occur and fuel 8
(supplied at every call site) never truncates it. -/
def rayMoves (b : Board) (color : Color) :
    Nat → Int → Int → Int → Int → List Position
  | 0, _, _, _, _ => []
  | fuel + 1, row, col, rowDir, colDir =>
    if isValidPosition ⟨row, col⟩ then
      match getSquare b row col with
      | none =>
        (⟨row, col⟩ : Position) ::
          rayMoves b color fuel (row + rowDir) (col + colDir) rowDir colDir
      | some target =>
        if target.color ≠ color then [(⟨row, col⟩ : Position)] else []
    else []

def getDirectionalMoves (b : Board) (frm : Position) (color : Color)
    (directions : List (Int × Int)) : List Position :=
  directions.flatMap (fun d =>
    rayMoves b color 8 (frm.row + d.1) (frm.col + d.2) d.1 d.2)

def getBishopMoves (b : Board) (frm : Position) (color : Color) : List Position :=
  getDirectionalMoves b frm color [(-1, -1), (-1, 1), (1, -1), (1, 1)]

def getRookMoves (b : Board) (frm : Position) (color : Color) : List Position :=
  getDirectionalMoves b frm color [(-1, 0), (1, 0), (0, -1), (0, 1)]

def getQueenMoves (b : Board) (frm : Position) (color : Color) : List Position :=
  getDirectionalMoves b frm color
    [(-1, -1), (-1, 0), (-1, 1), (0, -1), (0, 1), (1, -1), (1, 0), (1, 1)]

def kingOffsets : List (Int × Int) :=
  [(-1, -1), (-1, 0), (-1, 1), (0, -1), (0, 1), (1, -1), (1, 0), (1, 1)]

def getKingMoves (b : Board) (frm : Position) (color : Color) : List Position :=
  kingOffsets.filterMap (fun o =>
    let dest : Position := ⟨frm.row + o.1, frm.col + o.2⟩
    if isValidPosition dest then
      match getSquare b dest.row dest.col with
      | none => some dest
      | some target => if target.color ≠ color then some dest else none
    else none)

def pseudoMoves (b : Board) (frm : Position) (piece : Piece)
    (lastMove : Option Move) : List Position :=
  match piece.type with
  | PieceType.pawn => getPawnMoves b frm piece.color lastMove
  | PieceType.knight => getKnightMoves b frm piece.color
  | PieceType.bishop => getBishopMoves b frm piece.color
  | PieceType.rook => getRookMoves b frm piece.color
  | PieceType.queen => getQueenMoves b frm piece.color
  | PieceType.king => getKingMoves b frm piece.color

def findKing (b : Board) (color : Color) : Option Position :=
  (List.range 8).findSome? (fun row =>
    (List.range 8).findSome? (fun col =>
      match getSquare b (row : Int) (col : Int) with
      | some piece =>
        if piece.type = PieceType.king ∧ piece.color = color then
          some (⟨(row : Int), (col : Int)⟩ : Position)
        else none
      | none => none))

def getValidMovesWithoutCheckTest (b : Board) (frm : Position) : List Position :=
  match getSquare b frm.row frm.col with
  | none => []
  | some piece => pseudoMoves b frm piece none

def isInCheck (b : Board) (color : Color) : Bool :=
  match findKing b color with
  | none => false
  | some kingPos =>
    let opponentColor := opposite color
    (List.range 8).any (fun row =>
      (List.range 8).any (fun col =>
        match getSquare b (row : Int) (col : Int) with
        | some piece =>
          decide (piece.color = opponentColor) &&
            (getValidMovesWithoutCheckTest b ⟨(row : Int), (col : Int)⟩).any
              (fun mv => decide (mv.row = kingPos.row ∧ mv.col = kingPos.col))
        | none => false))

def wouldBeInCheck (b : Board) (frm dst : Position) (color : Color) : Bool :=
  let testBoard := copyBoard b
  isInCheck
    (setSquare
      (setSquare testBoard dst.row dst.col (getSquare testBoard frm.row frm.col))
      frm.row frm.col none)
    color

/-- The body of getValidMoves after the (possibly throwing) piece lookup. -/
def getValidMovesCore (b : Board) (frm : Position)
    (lastMove : Option Move) : List Position :=
  match getSquare b frm.row frm.col with
  | none => []
  | some piece =>
    (pseudoMoves b frm piece lastMove).filter
      (fun dst => ! wouldBeInCheck b frm dst piece.color)

/-- getValidMoves.  The very first statement of the source reads
board[from.row][from.col]; when from.row is outside the row range of the
array the first index yields undefined and the second one throws a
TypeError, modelled here as Except.error. -/
def getValidMoves (b : Board) (frm : Position)
    (lastMove : Option Move) : Except Unit (List Position) :=
  if 0 ≤ frm.row ∧ frm.row < (b.length : Int) then
    Except.ok (getValidMovesCore b frm lastMove)
  else Except.error ()

def hasAnyLegalMove (b : Board) (color : Color) : Bool :=
  (List.range 8).any (fun row =>
    (List.range 8).any (fun col =>
      match getSquare b (row : Int) (col : Int) with
      | some piece =>
        decide (piece.color = color) &&
          decide (0 < (getValidMovesCore b ⟨(row : Int), (col : Int)⟩ none).length)
      | none => false))

def isCheckmate (b : Board) (color : Color) : Bool :=
  isInCheck b color && ! hasAnyLegalMove b color

def isStalemate (b : Board) (color : Color) : Bool :=
  ! isInCheck b color && ! hasAnyLegalMove b color

/-! The search module, chessAI.ts. -/

inductive Difficulty where
  | easy | medium | hard
deriving DecidableEq, Repr

/-- JS number scores extended with the -Infinity and Infinity sentinels
used by the search (bottom and top of the order). -/
abbrev Score := WithBot (WithTop ℚ)

def Score.of (q : ℚ) : Score := ((q : WithTop ℚ) : Score)

def PIECE_VALUES : PieceType → ℚ
  | PieceType.pawn => 100
  | PieceType.knight => 320
  | PieceType.bishop => 330
  | PieceType.rook => 500
  | PieceType.queen => 900
  | PieceType.king => 20000

def getPositionBonus (piece : Piece) (row col : Int) : ℚ :=
  let centerBonus : ℚ :=
    max 0 (3 - |(3.5 : ℚ) - (row : ℚ)| - |(3.5 : ℚ) - (col : ℚ)|) * 10
  if piece.type = PieceType.pawn then
    if piece.color = Color.white then ((6 : ℚ) - (row : ℚ)) * 10
    else (row : ℚ) * 10
  else if piece.type = PieceType.knight ∨ piece.type = PieceType.bishop then
    centerBonus
  else 0

def evaluateBoard (b : Board) (color : Color) : ℚ :=
  (List.range 8).foldl (fun score row =>
    (List.range 8).foldl (fun score col =>
      match getSquare b (row : Int) (col : Int) with
      | some piece =>
        let value := PIECE_VALUES piece.type
        let positionBonus := getPositionBonus piece (row : Int) (col : Int)
        let total := value + positionBonus
        if piece.color = color then score + total else score - total
      | none => score) score) 0

/-- The from/to pairs returned by getAllPossibleMoves and getBestMove. -/
structure AIMove where
  src : Position
  dst : Position
deriving DecidableEq, Repr

def getAllPossibleMoves (b : Board) (color : Color) : List AIMove :=
  (List.range 8).flatMap (fun row =>
    (List.range 8).flatMap (fun col =>
      match getSquare b (row : Int) (col : Int) with
      | some piece =>
        if piece.color = color then
          (getValidMovesCore b ⟨(row : Int), (col : Int)⟩ none).map
            (fun dst => (⟨⟨(row : Int), (col : Int)⟩, dst⟩ : AIMove))
        else []
      | none => []))

def makeMove (board : Board) (frm dst : Position) : Board :=
  let newBoard := copyBoard board
  setSquare
    (setSquare newBoard dst.row dst.col (getSquare newBoard frm.row frm.col))
    frm.row frm.col none

/-- The maximizing for-loop of minimax: acc is maxEval, starting at
-Infinity; alpha is raised as the loop runs and the loop breaks as soon
as beta is at most alpha. -/
def abMaxLoop (f : Score → Score → Board → Score) (b : Board) :
    List AIMove → Score → Score → Score → Score
  | [], _, _, acc => acc
  | m :: rest, alpha, beta, acc =>
    let e := f alpha beta (makeMove b m.src m.dst)
    if beta ≤ max alpha e then max acc e
    else abMaxLoop f b rest (max alpha e) beta (max acc e)

/-- The minimizing for-loop of minimax: acc is minEval, starting at
Infinity; beta is lowered as the loop runs and the loop breaks as soon
as beta is at most alpha. -/
def abMinLoop (f : Score → Score → Board → Score) (b : Board) :
    List AIMove → Score → Score → Score → Score
  | [], _, _, acc => acc
  | m :: rest, alpha, beta, acc =>
    let e := f alpha beta (makeMove b m.src m.dst)
    if min beta e ≤ alpha then min acc e
    else abMinLoop f b rest alpha (min beta e) (min acc e)

def minimax (b : Board) (depth : Nat) (alpha beta : Score)
    (maximizing : Bool) (color : Color) : Score :=
  match depth with
  | 0 => Score.of (evaluateBoard b color)
  | d + 1 =>
    let currentColor := if maximizing then color else opposite color
    if isCheckmate b currentColor then
      if maximizing then Score.of (-999999) else Score.of 999999
    else
      let moves := getAllPossibleMoves b currentColor
      if moves = [] then Score.of 0
      else if maximizing then
        abMaxLoop (fun a bt cb => minimax cb d a bt false color) b moves alpha beta ⊥
      else
        abMinLoop (fun a bt cb => minimax cb d a bt true color) b moves alpha beta ⊤

/-- Modelled from the spec: the unpruned full minimax search of the same
depth, used as the reference point of the alpha-beta equivalence property
(no such function exists in the source; the spec describes it as the same
recursion with maximizing nodes taking the max of all child values and
minimizing nodes the min, with no pruning). -/
def minimaxFull (b : Board) (depth : Nat) (maximizing : Bool)
    (color : Color) : Score :=
  match depth with
  | 0 => Score.of (evaluateBoard b color)
  | d + 1 =>
    let currentColor := if maximizing then color else opposite color
    if isCheckmate b currentColor then
      if maximizing then Score.of (-999999) else Score.of 999999
    else
      let moves := getAllPossibleMoves b currentColor
      if moves = [] then Score.of 0
      else if maximizing then
        (moves.map (fun m => minimaxFull (makeMove b m.src m.dst) d false color)).foldl max ⊥
      else
        (moves.map (fun m => minimaxFull (makeMove b m.src m.dst) d true color)).foldl min ⊤

/-- The selection loop of getBestMove: keeps the first move whose score
strictly exceeds the best score seen so far. -/
def pickBest (score : AIMove → Score) :
    List AIMove → AIMove → Score → AIMove
  | [], bestMove, _ => bestMove
  | mv :: rest, bestMove, bestValue =>
    let value := score mv
    if bestValue < value then pickBest score rest mv value
    else pickBest score rest bestMove bestValue

/-- The values produced by the sequential Math.random() calls of the easy
path of getBestMove, made explicit inputs: r1 is the initial coin flip,
r2 the capture-preference flip, r3 the capture index draw and r4 the
fallback move index draw.  Math.random() always lies in [0, 1). -/
structure RandSrc where
  r1 : ℚ
  r2 : ℚ
  r3 : ℚ
  r4 : ℚ

def getBestMove (b : Board) (color : Color) (difficulty : Difficulty)
    (rnd : RandSrc) : Option AIMove :=
  let depth := if difficulty = Difficulty.easy then 1
               else if difficulty = Difficulty.medium then 2 else 3
  let moves := getAllPossibleMoves b color
  match moves with
  | [] => none
  | m0 :: _ =>
    if difficulty = Difficulty.easy ∧ rnd.r1 < (0.5 : ℚ) then
      let captures := moves.filter
        (fun move => (getSquare b move.dst.row move.dst.col).isSome)
      if 0 < captures.length ∧ rnd.r2 < (0.7 : ℚ) then
        captures[(⌊rnd.r3 * (captures.length : ℚ)⌋).toNat]?
      else
        moves[(⌊rnd.r4 * (moves.length : ℚ)⌋).toNat]?
    else
      some (pickBest
        (fun mv => minimax (makeMove b mv.src mv.dst) (depth - 1) ⊥ ⊤ false color)
        moves m0 ⊥)

/-- Modelled from the spec: getBestMove with the alpha-beta scorer replaced
by the unpruned full minimax search at the same depth and the same
first-strictly-greatest tie-break (the reference chooser of the alpha-beta
equivalence property; no such function exists in the source). -/
def getBestMoveFull (b : Board) (color : Color) (depth : Nat) : Option AIMove :=
  let moves := getAllPossibleMoves b color
  match moves with
  | [] => none
  | m0 :: _ =>
    some (pickBest
      (fun mv => minimaxFull (makeMove b mv.src mv.dst) (depth - 1) false color)
      moves m0 ⊥)

instance {ε α : Type} [DecidableEq ε] [DecidableEq α] : DecidableEq (Except ε α) :=
  fun x y =>
    match x, y with
    | Except.ok a, Except.ok b =>
      if h : a = b then isTrue (by rw [h]) else isFalse (by simp [h])
    | Except.ok _, Except.error _ => isFalse (by simp)
    | Except.error _, Except.ok _ => isFalse (by simp)
    | Except.error e, Except.error e' =>
      if h : e = e' then isTrue (by rw [h]) else isFalse (by simp [h])

/-! Helper boards for the concrete witnesses below. -/

def emptyRow : List (Option Piece) := List.replicate 8 none

def rowWith (l : List (Nat × Piece)) : List (Option Piece) :=
  (List.range 8).map (fun c => (l.find? (fun p => p.1 = c)).map (fun p => p.2))

/-- Black king cornered on a8, mated by the protected white queen on b7. -/
def cmBoard : Board :=
  [ rowWith [(0, ⟨PieceType.king, Color.black⟩)],
    rowWith [(1, ⟨PieceType.queen, Color.white⟩)],
    rowWith [(2, ⟨PieceType.king, Color.white⟩)],
    emptyRow, emptyRow, emptyRow, emptyRow, emptyRow ]

/-- Black king cornered on a8, stalemated by queen c7 and king b6. -/
def stBoard : Board :=
  [ rowWith [(0, ⟨PieceType.king, Color.black⟩)],
    rowWith [(2, ⟨PieceType.queen, Color.white⟩)],
    rowWith [(1, ⟨PieceType.king, Color.white⟩)],
    emptyRow, emptyRow, emptyRow, emptyRow, emptyRow ]

/-- A lone white knight in the middle of an otherwise quiet board. -/
def knBoard : Board :=
  [ rowWith [(0, ⟨PieceType.king, Color.black⟩)],
    emptyRow, emptyRow, emptyRow,
    rowWith [(4, ⟨PieceType.knight, Color.white⟩)],
    emptyRow, emptyRow,
    rowWith [(7, ⟨PieceType.king, Color.white⟩)] ]

/-- The Knuth-Moore contract of a fail-soft alpha-beta call: r is the
value returned with window (alpha, beta) and v the true (unpruned) value.
Inside the window the two agree; a fail-low result bounds v from above,
a fail-high result bounds it from below. -/
def approx (alpha beta v r : Score) : Prop :=
  (r ≤ alpha → v ≤ r) ∧ (alpha < r → r < beta → r = v) ∧ (beta ≤ r → r ≤ v)

/-- Running maximum of the true child values, seeded with w. -/
def foldMaxVal (g : AIMove → Score) (w : Score) (ms : List AIMove) : Score :=
  ms.foldl (fun acc m => max acc (g m)) w

/-- Running minimum of the true child values, seeded with w. -/
def foldMinVal (g : AIMove → Score) (w : Score) (ms : List AIMove) : Score :=
  ms.foldl (fun acc m => min acc (g m)) w

/-! Theorems.  First, plumbing about squares, boards and copies. -/

theorem copyBoard_eq (b : Board) : copyBoard b = b := by
  simp [copyBoard]

theorem getSquare_neg_row (b : Board) (r c : Int) (h : r < 0) :
    getSquare b r c = none := by
  simp [getSquare, jsGet, h]

theorem toNat_lt_of_wf (b : Board) (r : Int) (hb : boardWF b)
    (h0 : 0 ≤ r) (h8 : r < 8) : r.toNat < b.length := by
  rw [hb.1]; omega

theorem row_of_wf (b : Board) (r : Int) (hb : boardWF b)
    (h0 : 0 ≤ r) (h8 : r < 8) :
    ∃ row, b[r.toNat]? = some row ∧ row.length = 8 := by
  have hlt : r.toNat < b.length := toNat_lt_of_wf b r hb h0 h8
  refine ⟨b[r.toNat], List.getElem?_eq_getElem hlt, ?_⟩
  exact hb.2 _ (List.getElem_mem hlt)

theorem getSquare_setSquare_self (b : Board) (r c : Int) (v : Option Piece)
    (hb : boardWF b) (hv : isValidPosition ⟨r, c⟩) :
    getSquare (setSquare b r c v) r c = v := by
  obtain ⟨hr0, hr8, hc0, hc8⟩ := hv
  dsimp only at hr0 hr8 hc0 hc8
  obtain ⟨row, hrow, hrowlen⟩ := row_of_wf b r hb hr0 hr8
  have hrn : r.toNat < b.length := toNat_lt_of_wf b r hb hr0 hr8
  have hcn : c.toNat < row.length := by rw [hrowlen]; omega
  have h1 : ¬ (r < 0 ∨ c < 0) := by omega
  have h2 : ¬ r < 0 := by omega
  have h3 : ¬ c < 0 := by omega
  simp only [setSquare, getSquare, jsGet, if_neg h1, if_neg h2, if_neg h3]
  rw [List.getElem?_set_self (by simpa using hrn)]
  simp only [Option.some_bind, hrow, Option.getD_some]
  rw [List.getElem?_set_self hcn]
  rfl

theorem getSquare_setSquare_ne (b : Board) (r c r' c' : Int) (v : Option Piece)
    (h : ¬(r = r' ∧ c = c')) :
    getSquare (setSquare b r c v) r' c' = getSquare b r' c' := by
  unfold setSquare
  by_cases hneg : r < 0 ∨ c < 0
  · rw [if_pos hneg]
  · rw [if_neg hneg]
    push_neg at hneg
    obtain ⟨hr0, hc0⟩ := hneg
    unfold getSquare jsGet
    by_cases hr' : r' < 0
    · rw [if_pos hr', if_pos hr']
    · rw [if_neg hr', if_neg hr']
      push_neg at hr'
      by_cases hrr : r = r'
      · subst hrr
        have hcc : ¬ c = c' := fun hc => h ⟨rfl, hc⟩
        by_cases hlen : r.toNat < b.length
        · rw [List.getElem?_set_self (by simpa using hlen)]
          rw [List.getElem?_eq_getElem hlen]
          simp only [Option.some_bind, Option.getD_some]
          by_cases hc' : c' < 0
          · rw [if_pos hc', if_pos hc']
          · rw [if_neg hc', if_neg hc']
            rw [List.getElem?_set_ne (by omega)]
        · rw [List.set_eq_of_length_le (by omega)]
      · rw [List.getElem?_set_ne (by omega)]

theorem boardWF_setSquare (b : Board) (r c : Int) (v : Option Piece)
    (hb : boardWF b) : boardWF (setSquare b r c v) := by
  unfold setSquare
  by_cases hneg : r < 0 ∨ c < 0
  · rw [if_pos hneg]; exact hb
  · rw [if_neg hneg]
    by_cases hlen : r.toNat < b.length
    · constructor
      · rw [List.length_set]; exact hb.1
      · intro row hrow
        rcases List.mem_or_eq_of_mem_set hrow with hmem | heq
        · exact hb.2 _ hmem
        · subst heq
          rw [List.length_set, List.getElem?_eq_getElem hlen,
            Option.getD_some]
          exact hb.2 _ (List.getElem_mem hlen)
    · rw [List.set_eq_of_length_le (by omega)]; exact hb

theorem board_ext (b b' : Board) (hb : boardWF b) (hb' : boardWF b')
    (h : ∀ r c : Int, getSquare b r c = getSquare b' r c) : b = b' := by
  apply List.ext_getElem?
  intro n
  by_cases hn : n < 8
  · obtain ⟨row, hrow, hrowlen⟩ :=
      row_of_wf b (n : Int) hb (by omega) (by omega)
    obtain ⟨row', hrow', hrowlen'⟩ :=
      row_of_wf b' (n : Int) hb' (by omega) (by omega)
    simp only [Int.toNat_ofNat] at hrow hrow'
    rw [hrow, hrow']
    congr 1
    apply List.ext_getElem?
    intro m
    by_cases hm : m < 8
    · have hcell := h (n : Int) (m : Int)
      unfold getSquare jsGet at hcell
      rw [if_neg (by omega), if_neg (by omega)] at hcell
      simp only [Int.toNat_ofNat] at hcell
      rw [hrow, hrow'] at hcell
      rw [List.getElem?_eq_getElem (by omega),
        List.getElem?_eq_getElem (by omega)]
      simpa [List.getElem?_eq_getElem, hrowlen, hrowlen', hm] using hcell
    · rw [List.getElem?_eq_none (by omega), List.getElem?_eq_none (by omega)]
  · rw [List.getElem?_eq_none (by rw [hb.1]; omega),
      List.getElem?_eq_none (by rw [hb'.1]; omega)]

/-- wouldBeInCheck applies exactly the relocation makeMove performs and
then asks isInCheck. -/
theorem wouldBeInCheck_eq (b : Board) (frm dst : Position) (color : Color) :
    wouldBeInCheck b frm dst color = isInCheck (makeMove b frm dst) color := rfl

/-- C1: every destination returned by getValidMoves, applied to the board
by relocating the piece from the source to the destination, yields a board
on which isInCheck is false for the mover's color. -/
theorem getValidMoves_no_self_check (b : Board) (frm : Position)
    (lastMove : Option Move) (piece : Piece) (ms : List Position)
    (dst : Position)
    (hp : getSquare b frm.row frm.col = some piece)
    (hok : getValidMoves b frm lastMove = Except.ok ms)
    (hmem : dst ∈ ms) :
    isInCheck (makeMove b frm dst) piece.color = false := by
  unfold getValidMoves at hok
  split at hok
  case isFalse => exact absurd hok (by simp)
  case isTrue =>
    have hms : ms = getValidMovesCore b frm lastMove := by
      cases hok; rfl
    subst hms
    unfold getValidMovesCore at hmem
    rw [hp] at hmem
    rw [List.mem_filter] at hmem
    have := hmem.2
    rw [← wouldBeInCheck_eq]
    revert this
    cases wouldBeInCheck b frm dst piece.color <;> simp

theorem getValidMoves_no_self_check_witness :
    getSquare knBoard (4 : Int) (4 : Int) =
        some ⟨PieceType.knight, Color.white⟩ ∧
    getValidMoves knBoard ⟨4, 4⟩ none =
        Except.ok (getValidMovesCore knBoard ⟨4, 4⟩ none) ∧
    (⟨2, 3⟩ : Position) ∈ getValidMovesCore knBoard ⟨4, 4⟩ none ∧
    isInCheck (makeMove knBoard ⟨4, 4⟩ ⟨2, 3⟩) Color.white = false :=
  ⟨by decide, by decide, by decide,
    getValidMoves_no_self_check knBoard ⟨4, 4⟩ none
      ⟨PieceType.knight, Color.white⟩ (getValidMovesCore knBoard ⟨4, 4⟩ none)
      ⟨2, 3⟩ (by decide) (by decide) (by decide)⟩

/-- C10: applying a move whose source and destination are both p deletes
the piece standing on p: the square ends empty, so the board is not the
unchanged one. -/
theorem makeMove_self_deletes (b : Board) (p : Position) (piece : Piece)
    (hb : boardWF b) (hv : isValidPosition p)
    (hp : getSquare b p.row p.col = some piece) :
    getSquare (makeMove b p p) p.row p.col = none ∧ makeMove b p p ≠ b := by
  have hv' : isValidPosition ⟨p.row, p.col⟩ := hv
  have hnone : getSquare (makeMove b p p) p.row p.col = none := by
    unfold makeMove
    rw [copyBoard_eq]
    exact getSquare_setSquare_self _ p.row p.col none
      (boardWF_setSquare b p.row p.col _ hb) hv'
  refine ⟨hnone, fun hEq => ?_⟩
  rw [hEq, hp] at hnone
  exact Option.noConfusion hnone

theorem makeMove_self_deletes_witness :
    boardWF knBoard ∧ isValidPosition (⟨4, 4⟩ : Position) ∧
    getSquare knBoard (4 : Int) (4 : Int) =
        some ⟨PieceType.knight, Color.white⟩ ∧
    (getSquare (makeMove knBoard ⟨4, 4⟩ ⟨4, 4⟩) (4 : Int) (4 : Int) = none ∧
      makeMove knBoard ⟨4, 4⟩ ⟨4, 4⟩ ≠ knBoard) :=
  ⟨by decide, by decide, by decide,
    makeMove_self_deletes knBoard ⟨4, 4⟩ ⟨PieceType.knight, Color.white⟩
      (by decide) (by decide) (by decide)⟩

/-- What makeMove does to each square of a well-formed board. -/
theorem getSquare_makeMove (b : Board) (frm dst : Position) (r c : Int)
    (hb : boardWF b) (hf : isValidPosition frm) (ht : isValidPosition dst)
    (hne : frm ≠ dst) :
    getSquare (makeMove b frm dst) r c =
      if r = frm.row ∧ c = frm.col then none
      else if r = dst.row ∧ c = dst.col then getSquare b frm.row frm.col
      else getSquare b r c := by
  have hf' : isValidPosition ⟨frm.row, frm.col⟩ := hf
  have ht' : isValidPosition ⟨dst.row, dst.col⟩ := ht
  have hWF1 : boardWF (setSquare b dst.row dst.col (getSquare b frm.row frm.col)) :=
    boardWF_setSquare b _ _ _ hb
  have hnefd : ¬ (frm.row = dst.row ∧ frm.col = dst.col) := by
    intro hc
    exact hne (by cases frm; cases dst; simp_all)
  unfold makeMove
  rw [copyBoard_eq]
  by_cases h1 : r = frm.row ∧ c = frm.col
  · rw [if_pos h1]
    obtain ⟨hr, hc⟩ := h1
    subst hr; subst hc
    exact getSquare_setSquare_self _ _ _ none hWF1 hf'
  · rw [if_neg h1, getSquare_setSquare_ne _ _ _ _ _ _
      (by intro hc; exact h1 ⟨hc.1.symm, hc.2.symm⟩)]
    by_cases h2 : r = dst.row ∧ c = dst.col
    · rw [if_pos h2]
      obtain ⟨hr, hc⟩ := h2
      subst hr; subst hc
      exact getSquare_setSquare_self _ _ _ _ hb ht'
    · rw [if_neg h2, getSquare_setSquare_ne _ _ _ _ _ _
        (by intro hc; exact h2 ⟨hc.1.symm, hc.2.symm⟩)]

theorem boardWF_makeMove (b : Board) (frm dst : Position) (hb : boardWF b) :
    boardWF (makeMove b frm dst) := by
  unfold makeMove
  rw [copyBoard_eq]
  exact boardWF_setSquare _ _ _ _ (boardWF_setSquare b _ _ _ hb)

/-- C9: applying a move and then the same piece's return move restores
every square except the destination, which ends empty; in particular if
the destination was empty the round trip restores the board exactly. -/
theorem makeMove_roundTrip (b : Board) (frm dst : Position) (piece : Piece)
    (hb : boardWF b) (hf : isValidPosition frm) (ht : isValidPosition dst)
    (hne : frm ≠ dst) (hp : getSquare b frm.row frm.col = some piece) :
    (∀ r c : Int, ¬(r = dst.row ∧ c = dst.col) →
        getSquare (makeMove (makeMove b frm dst) dst frm) r c =
          getSquare b r c) ∧
    getSquare (makeMove (makeMove b frm dst) dst frm) dst.row dst.col = none ∧
    (getSquare b dst.row dst.col = none →
        makeMove (makeMove b frm dst) dst frm = b) := by
  have hb1 : boardWF (makeMove b frm dst) := boardWF_makeMove b frm dst hb
  have hne' : dst ≠ frm := fun h => hne h.symm
  have hnefd : ¬ (frm.row = dst.row ∧ frm.col = dst.col) := by
    intro hc
    exact hne (by cases frm; cases dst; simp_all)
  have hnedf : ¬ (dst.row = frm.row ∧ dst.col = frm.col) := by
    intro hc
    exact hnefd ⟨hc.1.symm, hc.2.symm⟩
  have step2 : ∀ r c : Int,
      getSquare (makeMove (makeMove b frm dst) dst frm) r c =
        if r = dst.row ∧ c = dst.col then none
        else if r = frm.row ∧ c = frm.col then
          getSquare (makeMove b frm dst) dst.row dst.col
        else getSquare (makeMove b frm dst) r c := by
    intro r c
    exact getSquare_makeMove (makeMove b frm dst) dst frm r c hb1 ht hf hne'
  have hmid : getSquare (makeMove b frm dst) dst.row dst.col =
      getSquare b frm.row frm.col := by
    rw [getSquare_makeMove b frm dst _ _ hb hf ht hne, if_neg hnedf,
      if_pos ⟨rfl, rfl⟩]
  have main : ∀ r c : Int, ¬(r = dst.row ∧ c = dst.col) →
      getSquare (makeMove (makeMove b frm dst) dst frm) r c =
        getSquare b r c := by
    intro r c hrc
    rw [step2, if_neg hrc]
    by_cases h1 : r = frm.row ∧ c = frm.col
    · rw [if_pos h1, hmid]
      obtain ⟨hr, hc⟩ := h1
      subst hr; subst hc
      rfl
    · rw [if_neg h1,
        getSquare_makeMove b frm dst r c hb hf ht hne, if_neg h1, if_neg hrc]
  have hdst : getSquare (makeMove (makeMove b frm dst) dst frm)
      dst.row dst.col = none := by
    rw [step2, if_pos ⟨rfl, rfl⟩]
  refine ⟨main, hdst, fun hempty => ?_⟩
  apply board_ext _ _ (boardWF_makeMove _ dst frm hb1) hb
  intro r c
  by_cases hrc : r = dst.row ∧ c = dst.col
  · obtain ⟨hr, hc⟩ := hrc
    subst hr; subst hc
    rw [hdst, hempty]
  · exact main r c hrc

theorem makeMove_roundTrip_witness :
    boardWF knBoard ∧ isValidPosition (⟨4, 4⟩ : Position) ∧
    isValidPosition (⟨3, 3⟩ : Position) ∧
    (⟨4, 4⟩ : Position) ≠ (⟨3, 3⟩ : Position) ∧
    getSquare knBoard (4 : Int) (4 : Int) =
        some ⟨PieceType.knight, Color.white⟩ ∧
    getSquare knBoard (3 : Int) (3 : Int) = none ∧
    makeMove (makeMove knBoard ⟨4, 4⟩ ⟨3, 3⟩) ⟨3, 3⟩ ⟨4, 4⟩ = knBoard :=
  ⟨by decide, by decide, by decide, by decide, by decide, by decide,
    (makeMove_roundTrip knBoard ⟨4, 4⟩ ⟨3, 3⟩ ⟨PieceType.knight, Color.white⟩
      (by decide) (by decide) (by decide) (by decide) (by decide)).2.2
      (by decide)⟩

/-- C4 counterexample: querying row 8 does not return an empty sequence;
the row lookup yields undefined and the column index into it throws
(modelled as Except.error). -/
theorem getValidMoves_out_of_range_counterexample :
    getValidMoves INITIAL_BOARD ⟨8, 0⟩ none = Except.error () ∧
    getValidMoves INITIAL_BOARD ⟨8, 0⟩ none ≠ Except.ok [] := by
  constructor
  · rfl
  · intro h
    exact Except.noConfusion h

/-- C4 (amended): with the source row inside [0,8) getValidMoves never
fails; an empty square there, including any out-of-range column, yields
the empty sequence.  A source row outside [0,8) however makes the square
lookup throw rather than return an empty sequence. -/
theorem getValidMoves_total_amended (b : Board) (frm : Position)
    (lastMove : Option Move) (hb : boardWF b) :
    ((0 ≤ frm.row ∧ frm.row < 8) → getSquare b frm.row frm.col = none →
        getValidMoves b frm lastMove = Except.ok []) ∧
    ((frm.row < 0 ∨ 8 ≤ frm.row) →
        getValidMoves b frm lastMove = Except.error ()) := by
  have hlen : (b.length : Int) = 8 := by rw [hb.1]; rfl
  constructor
  · intro hr hempty
    unfold getValidMoves
    rw [if_pos ⟨hr.1, by rw [hlen]; exact hr.2⟩]
    unfold getValidMovesCore
    rw [hempty]
  · intro hr
    unfold getValidMoves
    rw [if_neg (by rw [hlen]; omega)]

theorem getValidMoves_total_amended_witness :
    boardWF INITIAL_BOARD ∧
    (0 ≤ (⟨0, 9⟩ : Position).row ∧ (⟨0, 9⟩ : Position).row < 8) ∧
    getSquare INITIAL_BOARD (⟨0, 9⟩ : Position).row (⟨0, 9⟩ : Position).col =
        none ∧
    getValidMoves INITIAL_BOARD ⟨0, 9⟩ none = Except.ok [] :=
  ⟨by decide, by decide, by decide,
    (getValidMoves_total_amended INITIAL_BOARD ⟨0, 9⟩ none (by decide)).1
      (by decide) (by decide)⟩

/-- C3 counterexample: a black pawn still on its starting rank (row 1) has
advanced zero rows, yet its positional bonus is 10, not 10 times 0. -/
theorem getPositionBonus_counterexample :
    getPositionBonus ⟨PieceType.pawn, Color.black⟩ 1 0 ≠
        10 * ((1 : ℚ) - 1) ∧
    getPositionBonus ⟨PieceType.pawn, Color.black⟩ 1 0 = 10 := by
  have h : getPositionBonus ⟨PieceType.pawn, Color.black⟩ 1 0 = 10 := by
    unfold getPositionBonus
    rw [if_pos rfl, if_neg (by simp)]
    norm_num
  refine ⟨?_, h⟩
  rw [h]
  norm_num


/-- C3 (amended): white pawns get 10 times (6 - row), the rows advanced
from their starting rank 6; black pawns get 10 times row, the rows
advanced from the black back rank 0 - one more than the rows advanced
from their starting rank 1.  Knights and bishops get the center bonus of
the claim and rooks, queens and kings get zero. -/
theorem getPositionBonus_amended (piece : Piece) (row col : Int) :
    (piece.type = PieceType.pawn → getPositionBonus piece row col =
        (if piece.color = Color.white then ((6 : ℚ) - (row : ℚ)) * 10
         else (row : ℚ) * 10)) ∧
    ((piece.type = PieceType.knight ∨ piece.type = PieceType.bishop) →
        getPositionBonus piece row col =
          max 0 (3 - |(3.5 : ℚ) - (row : ℚ)| - |(3.5 : ℚ) - (col : ℚ)|) * 10) ∧
    ((piece.type = PieceType.rook ∨ piece.type = PieceType.queen ∨
        piece.type = PieceType.king) →
        getPositionBonus piece row col = 0) := by
  obtain ⟨t, c⟩ := piece
  cases t <;> simp [getPositionBonus]

theorem getPositionBonus_amended_witness :
    (⟨PieceType.pawn, Color.black⟩ : Piece).type = PieceType.pawn ∧
    getPositionBonus ⟨PieceType.pawn, Color.black⟩ 1 0 =
      (if (⟨PieceType.pawn, Color.black⟩ : Piece).color = Color.white then
        ((6 : ℚ) - ((1 : Int) : ℚ)) * 10
      else (((1 : Int) : ℚ)) * 10) :=
  ⟨rfl, (getPositionBonus_amended ⟨PieceType.pawn, Color.black⟩ 1 0).1 rfl⟩

theorem mem_rayMoves_valid (b : Board) (color : Color) :
    ∀ (fuel : Nat) (row col rowDir colDir : Int) (pos : Position),
      pos ∈ rayMoves b color fuel row col rowDir colDir →
      isValidPosition pos := by
  intro fuel
  induction fuel with
  | zero =>
    intro row col dr dc pos h
    simp [rayMoves] at h
  | succ n ih =>
    intro row col dr dc pos h
    rw [rayMoves] at h
    split at h
    case isTrue hv =>
      split at h
      · rcases List.mem_cons.mp h with heq | h2
        · subst heq; exact hv
        · exact ih _ _ _ _ _ h2
      · split at h
        · rw [List.mem_singleton] at h
          subst h; exact hv
        · simp at h
    case isFalse => simp at h

theorem mem_directionalMoves_valid (b : Board) (frm : Position)
    (color : Color) (directions : List (Int × Int)) (pos : Position)
    (h : pos ∈ getDirectionalMoves b frm color directions) :
    isValidPosition pos := by
  unfold getDirectionalMoves at h
  rw [List.mem_flatMap] at h
  obtain ⟨d, _, hd⟩ := h
  exact mem_rayMoves_valid b color 8 _ _ _ _ pos hd

theorem mem_knightMoves_valid (b : Board) (frm : Position) (color : Color)
    (pos : Position) (h : pos ∈ getKnightMoves b frm color) :
    isValidPosition pos := by
  unfold getKnightMoves at h
  rw [List.mem_filterMap] at h
  obtain ⟨o, _, ho⟩ := h
  dsimp only at ho
  split at ho
  case isTrue hv =>
    split at ho
    · exact (Option.some.inj ho) ▸ hv
    · split at ho
      · exact (Option.some.inj ho) ▸ hv
      · exact Option.noConfusion ho
  case isFalse => exact Option.noConfusion ho

theorem mem_kingMoves_valid (b : Board) (frm : Position) (color : Color)
    (pos : Position) (h : pos ∈ getKingMoves b frm color) :
    isValidPosition pos := by
  unfold getKingMoves at h
  rw [List.mem_filterMap] at h
  obtain ⟨o, _, ho⟩ := h
  dsimp only at ho
  split at ho
  case isTrue hv =>
    split at ho
    · exact (Option.some.inj ho) ▸ hv
    · split at ho
      · exact (Option.some.inj ho) ▸ hv
      · exact Option.noConfusion ho
  case isFalse => exact Option.noConfusion ho

theorem mem_pawnMoves_valid (b : Board) (frm : Position) (color : Color)
    (lastMove : Option Move) (pos : Position)
    (h : pos ∈ getPawnMoves b frm color lastMove) :
    isValidPosition pos := by
  unfold getPawnMoves at h
  by_cases hc : color = Color.white <;>
    simp only [hc, if_true, if_false, reduceIte] at h <;>
    rw [List.mem_append] at h
  · rcases h with h | h
    · by_cases h1 : isValidPosition ⟨frm.row + -1, frm.col⟩ ∧
          getSquare b (frm.row + -1) frm.col = none
      · rw [if_pos h1] at h
        rcases List.mem_cons.mp h with heq | h2
        · subst heq; exact h1.1
        · by_cases h3 : frm.row = 6 ∧ getSquare b (frm.row + 2 * -1) frm.col = none
          · rw [if_pos h3] at h2
            rw [List.mem_singleton] at h2
            subst h2
            have hv := h1.1
            have hr := h3.1
            simp only [isValidPosition] at hv ⊢
            omega
          · rw [if_neg h3] at h2; simp at h2
      · rw [if_neg h1] at h; simp at h
    · rw [List.mem_flatMap] at h
      obtain ⟨off, hoffmem, h⟩ := h
      by_cases h1 : isValidPosition ⟨frm.row + -1, frm.col + off⟩
      · rw [if_pos h1] at h
        rw [List.mem_append] at h
        have heq : pos = ⟨frm.row + -1, frm.col + off⟩ := by
          rcases h with h | h
          · rcases hsq : getSquare b (frm.row + -1) (frm.col + off) with _ | target <;>
              rw [hsq] at h <;> dsimp only at h
            · simp at h
            · split_ifs at h
              · simpa using h
              · simp at h
          · rcases lastMove with _ | lm <;> dsimp only at h
            · simp at h
            · split_ifs at h
              · simpa using h
              · simp at h
        subst heq; exact h1
      · rw [if_neg h1] at h; simp at h
  · rcases h with h | h
    · by_cases h1 : isValidPosition ⟨frm.row + 1, frm.col⟩ ∧
          getSquare b (frm.row + 1) frm.col = none
      · rw [if_pos h1] at h
        rcases List.mem_cons.mp h with heq | h2
        · subst heq; exact h1.1
        · by_cases h3 : frm.row = 1 ∧ getSquare b (frm.row + 2 * 1) frm.col = none
          · rw [if_pos h3] at h2
            rw [List.mem_singleton] at h2
            subst h2
            have hv := h1.1
            have hr := h3.1
            simp only [isValidPosition] at hv ⊢
            omega
          · rw [if_neg h3] at h2; simp at h2
      · rw [if_neg h1] at h; simp at h
    · rw [List.mem_flatMap] at h
      obtain ⟨off, hoffmem, h⟩ := h
      by_cases h1 : isValidPosition ⟨frm.row + 1, frm.col + off⟩
      · rw [if_pos h1] at h
        rw [List.mem_append] at h
        have heq : pos = ⟨frm.row + 1, frm.col + off⟩ := by
          rcases h with h | h
          · rcases hsq : getSquare b (frm.row + 1) (frm.col + off) with _ | target <;>
              rw [hsq] at h <;> dsimp only at h
            · simp at h
            · split_ifs at h
              · simpa using h
              · simp at h
          · rcases lastMove with _ | lm <;> dsimp only at h
            · simp at h
            · split_ifs at h
              · simpa using h
              · simp at h
        subst heq; exact h1
      · rw [if_neg h1] at h; simp at h

theorem mem_pseudoMoves_valid (b : Board) (frm : Position) (piece : Piece)
    (lastMove : Option Move) (pos : Position)
    (h : pos ∈ pseudoMoves b frm piece lastMove) : isValidPosition pos := by
  unfold pseudoMoves at h
  rcases hp : piece.type <;> rw [hp] at h
  · exact mem_pawnMoves_valid b frm piece.color lastMove pos h
  · exact mem_knightMoves_valid b frm piece.color pos h
  · exact mem_directionalMoves_valid b frm piece.color _ pos h
  · exact mem_directionalMoves_valid b frm piece.color _ pos h
  · exact mem_directionalMoves_valid b frm piece.color _ pos h
  · exact mem_kingMoves_valid b frm piece.color pos h

/-- C8: every position produced by move generation - by getValidMoves and
by each per-piece generator, the pawn's double advance included - lies on
the board: 0 ≤ row < 8 and 0 ≤ col < 8. -/
theorem moveGeneration_in_range (b : Board) (frm : Position) (color : Color)
    (lastMove : Option Move) (hf : isValidPosition frm) :
    (∀ pos ∈ getPawnMoves b frm color lastMove, isValidPosition pos) ∧
    (∀ pos ∈ getKnightMoves b frm color, isValidPosition pos) ∧
    (∀ pos ∈ getBishopMoves b frm color, isValidPosition pos) ∧
    (∀ pos ∈ getRookMoves b frm color, isValidPosition pos) ∧
    (∀ pos ∈ getQueenMoves b frm color, isValidPosition pos) ∧
    (∀ pos ∈ getKingMoves b frm color, isValidPosition pos) ∧
    (∀ (ms : List Position) (pos : Position),
        getValidMoves b frm lastMove = Except.ok ms → pos ∈ ms →
        isValidPosition pos) := by
  refine ⟨fun pos h => mem_pawnMoves_valid b frm color lastMove pos h,
    fun pos h => mem_knightMoves_valid b frm color pos h,
    fun pos h => mem_directionalMoves_valid b frm color _ pos h,
    fun pos h => mem_directionalMoves_valid b frm color _ pos h,
    fun pos h => mem_directionalMoves_valid b frm color _ pos h,
    fun pos h => mem_kingMoves_valid b frm color pos h,
    fun ms pos hok hmem => ?_⟩
  unfold getValidMoves at hok
  split at hok
  case isFalse => exact absurd hok (by simp)
  case isTrue =>
    have hms : ms = getValidMovesCore b frm lastMove := by
      cases hok; rfl
    subst hms
    unfold getValidMovesCore at hmem
    split at hmem
    · simp at hmem
    case h_2 piece hp =>
      rw [List.mem_filter] at hmem
      exact mem_pseudoMoves_valid b frm piece lastMove pos hmem.1

theorem moveGeneration_in_range_witness :
    isValidPosition (⟨6, 4⟩ : Position) ∧
    (∀ pos ∈ getPawnMoves INITIAL_BOARD ⟨6, 4⟩ Color.white none,
        isValidPosition pos) :=
  ⟨by decide,
    (moveGeneration_in_range INITIAL_BOARD ⟨6, 4⟩ Color.white none
      (by decide)).1⟩

/-- C6: at positive depth, minimax returns -999999 when maximizing and
the side to move is checkmated, +999999 when minimizing and the side to
move is checkmated, and 0 when that side is not checkmated but has no
legal move. -/
theorem minimax_terminal (b : Board) (depth : Nat) (alpha beta : Score)
    (maximizing : Bool) (color : Color) (hd : 0 < depth) :
    (isCheckmate b (if maximizing then color else opposite color) = true →
        minimax b depth alpha beta maximizing color =
          (if maximizing then Score.of (-999999) else Score.of 999999)) ∧
    (isCheckmate b (if maximizing then color else opposite color) = false →
        getAllPossibleMoves b (if maximizing then color else opposite color) = [] →
        minimax b depth alpha beta maximizing color = Score.of 0) := by
  obtain ⟨d, rfl⟩ : ∃ d, depth = d + 1 := ⟨depth - 1, by omega⟩
  constructor
  · intro hcm
    rw [minimax]
    simp only [hcm, if_true, reduceIte]
  · intro hcm hmv
    rw [minimax]
    simp only [hcm, hmv, Bool.false_eq_true, if_false, reduceIte]

theorem minimax_terminal_witness :
    ((0 : Nat) < 1 ∧
      isCheckmate cmBoard (if false then Color.white else opposite Color.white)
          = true ∧
      minimax cmBoard 1 ⊥ ⊤ false Color.white = Score.of 999999) ∧
    (isCheckmate stBoard (if false then Color.white else opposite Color.white)
          = false ∧
      getAllPossibleMoves stBoard
          (if false then Color.white else opposite Color.white) = [] ∧
      minimax stBoard 1 ⊥ ⊤ false Color.white = Score.of 0) :=
  ⟨⟨by decide, by decide,
    (minimax_terminal cmBoard 1 ⊥ ⊤ false Color.white (by decide)).1 (by decide)⟩,
    ⟨by decide, by decide,
    (minimax_terminal stBoard 1 ⊥ ⊤ false Color.white (by decide)).2
      (by decide) (by decide)⟩⟩

/-- C7: at medium and hard difficulty getBestMove ignores the random
source entirely - two calls on the same board and color agree. -/
theorem getBestMove_deterministic (b : Board) (color : Color)
    (difficulty : Difficulty) (r r' : RandSrc)
    (hd : difficulty = Difficulty.medium ∨ difficulty = Difficulty.hard) :
    getBestMove b color difficulty r = getBestMove b color difficulty r' := by
  rcases hd with rfl | rfl <;>
    simp only [getBestMove] <;>
    cases hmv : getAllPossibleMoves b color <;>
    simp

theorem getBestMove_deterministic_witness :
    (Difficulty.medium = Difficulty.medium ∨
        Difficulty.medium = Difficulty.hard) ∧
    getBestMove knBoard Color.white Difficulty.medium ⟨0, 0, 0, 0⟩ =
      getBestMove knBoard Color.white Difficulty.medium
        ⟨1/2, 1/3, 1/5, 1/7⟩ :=
  ⟨Or.inl rfl,
    getBestMove_deterministic knBoard Color.white Difficulty.medium
      ⟨0, 0, 0, 0⟩ ⟨1/2, 1/3, 1/5, 1/7⟩ (Or.inl rfl)⟩

theorem pickBest_result_mem (f : AIMove → Score) :
    ∀ (ms : List AIMove) (best : AIMove) (v : Score),
      pickBest f ms best v = best ∨ pickBest f ms best v ∈ ms := by
  intro ms
  induction ms with
  | nil => intro best v; left; rfl
  | cons m rest ih =>
    intro best v
    rw [pickBest]
    split
    · rcases ih m (f m) with h | h
      · right; rw [h]; exact List.mem_cons_self m rest
      · right; exact List.mem_cons_of_mem _ h
    · rcases ih best v with h | h
      · left; exact h
      · right; exact List.mem_cons_of_mem _ h

theorem floor_index_lt (q : ℚ) (n : Nat) (h0 : 0 ≤ q) (h1 : q < 1)
    (hn : 0 < n) : (⌊q * (n : ℚ)⌋).toNat < n := by
  have hlt : q * (n : ℚ) < (n : ℚ) := by
    calc q * (n : ℚ) < 1 * (n : ℚ) := by
          apply mul_lt_mul_of_pos_right h1
          exact_mod_cast hn
      _ = (n : ℚ) := one_mul _
  have hfl : ⌊q * (n : ℚ)⌋ < (n : ℤ) := by
    rw [Int.floor_lt]
    exact_mod_cast hlt
  have hge : 0 ≤ ⌊q * (n : ℚ)⌋ := Int.floor_nonneg.mpr (by positivity)
  omega

/-- C5: getBestMove returns none exactly when the color has no legal move
anywhere on the board, and any move it returns is one of the legal moves
enumerated for that color. -/
theorem getBestMove_none_iff (b : Board) (color : Color)
    (difficulty : Difficulty) (rnd : RandSrc)
    (h3a : 0 ≤ rnd.r3) (h3b : rnd.r3 < 1)
    (h4a : 0 ≤ rnd.r4) (h4b : rnd.r4 < 1) :
    (getBestMove b color difficulty rnd = none ↔
        getAllPossibleMoves b color = []) ∧
    (∀ mv : AIMove, getBestMove b color difficulty rnd = some mv →
        mv ∈ getAllPossibleMoves b color) := by
  cases hmv : getAllPossibleMoves b color with
  | nil =>
    simp only [getBestMove, hmv]
    exact ⟨by simp, fun mv h => Option.noConfusion h⟩
  | cons m0 rest =>
    simp only [getBestMove, hmv]
    by_cases he : difficulty = Difficulty.easy ∧ rnd.r1 < (0.5 : ℚ)
    · rw [if_pos he]
      by_cases hc : 0 < ((m0 :: rest).filter
            (fun move => (getSquare b move.dst.row move.dst.col).isSome)).length ∧
          rnd.r2 < (0.7 : ℚ)
      · rw [if_pos hc]
        have hidx := floor_index_lt rnd.r3 _ h3a h3b hc.1
        rw [List.getElem?_eq_getElem hidx]
        refine ⟨by simp, fun mv h => ?_⟩
        cases h
        exact List.mem_of_mem_filter (List.getElem_mem hidx)
      · rw [if_neg hc]
        have hlen : 0 < (m0 :: rest).length := by simp
        have hidx := floor_index_lt rnd.r4 _ h4a h4b hlen
        rw [List.getElem?_eq_getElem hidx]
        refine ⟨by simp, fun mv h => ?_⟩
        cases h
        exact List.getElem_mem hidx
    · rw [if_neg he]
      refine ⟨by simp, fun mv h => ?_⟩
      cases h
      rcases pickBest_result_mem _ (m0 :: rest) m0 ⊥ with h | h
      · rw [h]; exact List.mem_cons_self m0 rest
      · exact h

theorem getBestMove_none_iff_witness :
    (0 ≤ (⟨0, 0, 0, 0⟩ : RandSrc).r3 ∧ (⟨0, 0, 0, 0⟩ : RandSrc).r3 < 1 ∧
      0 ≤ (⟨0, 0, 0, 0⟩ : RandSrc).r4 ∧ (⟨0, 0, 0, 0⟩ : RandSrc).r4 < 1) ∧
    (getBestMove knBoard Color.white Difficulty.easy ⟨0, 0, 0, 0⟩ = none ↔
        getAllPossibleMoves knBoard Color.white = []) ∧
    (∀ mv : AIMove,
        getBestMove knBoard Color.white Difficulty.easy ⟨0, 0, 0, 0⟩ = some mv →
        mv ∈ getAllPossibleMoves knBoard Color.white) :=
  ⟨⟨by norm_num, by norm_num, by norm_num, by norm_num⟩,
    getBestMove_none_iff knBoard Color.white Difficulty.easy ⟨0, 0, 0, 0⟩
      (by norm_num) (by norm_num) (by norm_num) (by norm_num)⟩

theorem approx_self (alpha beta v : Score) : approx alpha beta v v :=
  ⟨fun _ => le_refl v, fun _ _ => rfl, fun _ => le_refl v⟩

theorem foldMaxVal_cons (g : AIMove → Score) (w : Score) (m : AIMove)
    (ms : List AIMove) :
    foldMaxVal g w (m :: ms) = foldMaxVal g (max w (g m)) ms := rfl

theorem foldMinVal_cons (g : AIMove → Score) (w : Score) (m : AIMove)
    (ms : List AIMove) :
    foldMinVal g w (m :: ms) = foldMinVal g (min w (g m)) ms := rfl

theorem le_foldMaxVal (g : AIMove → Score) :
    ∀ (ms : List AIMove) (w : Score), w ≤ foldMaxVal g w ms := by
  intro ms
  induction ms with
  | nil => intro w; exact le_refl w
  | cons m rest ih =>
    intro w
    rw [foldMaxVal_cons]
    exact le_trans (le_max_left w (g m)) (ih (max w (g m)))

theorem foldMinVal_le (g : AIMove → Score) :
    ∀ (ms : List AIMove) (w : Score), foldMinVal g w ms ≤ w := by
  intro ms
  induction ms with
  | nil => intro w; exact le_refl w
  | cons m rest ih =>
    intro w
    rw [foldMinVal_cons]
    exact le_trans (ih (min w (g m))) (min_le_left w (g m))

theorem abMaxLoop_approx (f : Score → Score → Board → Score)
    (g : AIMove → Score) (b : Board)
    (hf : ∀ (al bt : Score) (m : AIMove), al < bt →
        approx al bt (g m) (f al bt (makeMove b m.src m.dst))) :
    ∀ (ms : List AIMove) (alpha0 acc w beta : Score),
      alpha0 < beta → acc < beta →
      (acc ≤ alpha0 → w ≤ acc) → (alpha0 < acc → acc = w) →
      approx alpha0 beta (foldMaxVal g w ms)
        (abMaxLoop f b ms (max alpha0 acc) beta acc) := by
  intro ms
  induction ms with
  | nil =>
    intro alpha0 acc w beta hab hacc H1 H2
    refine ⟨fun hle => H1 hle, fun hlt _ => H2 hlt, fun hbeta => ?_⟩
    exact absurd hbeta (not_le.mpr hacc)
  | cons m rest ih =>
    intro alpha0 acc w beta hab hacc H1 H2
    have hAb : max alpha0 acc < beta := max_lt hab hacc
    have he := hf (max alpha0 acc) beta m hAb
    rw [abMaxLoop, foldMaxVal_cons]
    set A := max alpha0 acc with hA
    set e := f A beta (makeMove b m.src m.dst) with hedef
    by_cases hb : beta ≤ max A e
    · rw [if_pos hb]
      have hbe : beta ≤ e := by
        rcases le_max_iff.mp hb with h | h
        · exact absurd h (not_le.mpr hAb)
        · exact h
      have hacc_e : max acc e = e :=
        max_eq_right (le_of_lt (lt_of_lt_of_le hacc hbe))
      rw [hacc_e]
      have hgm : e ≤ g m := he.2.2 hbe
      have hT : g m ≤ foldMaxVal g (max w (g m)) rest :=
        le_trans (le_max_right w (g m)) (le_foldMaxVal g rest (max w (g m)))
      have halpha0e : alpha0 < e :=
        lt_of_le_of_lt (le_max_left alpha0 acc) (lt_of_lt_of_le hAb hbe)
      exact ⟨fun hle => absurd hle (not_le.mpr halpha0e),
        fun _ hlt => absurd hlt (not_lt.mpr hbe),
        fun _ => le_trans hgm hT⟩
    · rw [if_neg hb]
      have hmaxlt : max A e < beta := not_le.mp hb
      have haccA : acc ≤ A := le_max_right alpha0 acc
      have hacc' : max acc e < beta :=
        lt_of_le_of_lt (max_le_max haccA (le_refl e)) hmaxlt
      have hassoc : max A e = max alpha0 (max acc e) := max_assoc alpha0 acc e
      rw [hassoc]
      apply ih alpha0 (max acc e) (max w (g m)) beta hab hacc'
      · intro hle
        have hacc_le : acc ≤ alpha0 := le_trans (le_max_left acc e) hle
        have he_le : e ≤ alpha0 := le_trans (le_max_right acc e) hle
        have heA : e ≤ A := le_trans he_le (le_max_left alpha0 acc)
        have hgme : g m ≤ e := he.1 heA
        exact max_le_max (H1 hacc_le) hgme
      · intro hlt
        rcases le_total e acc with h1 | h1
        · have hmax : max acc e = acc := max_eq_left h1
          rw [hmax] at hlt ⊢
          have haccw : acc = w := H2 hlt
          have hA2 : A = acc := max_eq_right (le_of_lt hlt)
          have hgme : g m ≤ e := he.1 (by rw [hA2]; exact h1)
          have hgacc : g m ≤ acc := le_trans hgme h1
          rw [← haccw]
          exact (max_eq_left hgacc).symm
        · have hmax : max acc e = e := max_eq_right h1
          rw [hmax] at hlt ⊢
          rcases le_or_lt e A with h2 | h2
          · have hacc_lt : alpha0 < acc := by
              by_contra hno
              push_neg at hno
              have hAeq : A = alpha0 := max_eq_left hno
              rw [hAeq] at h2
              exact absurd hlt (not_lt.mpr h2)
            have heacc : e ≤ acc := by
              have hA2 : A = acc := max_eq_right (le_of_lt hacc_lt)
              rw [hA2] at h2; exact h2
            have heq : e = acc := le_antisymm heacc h1
            have haccw : acc = w := H2 hacc_lt
            have hgme : g m ≤ e := he.1 h2
            rw [heq, ← haccw]
            exact (max_eq_left (heq ▸ hgme)).symm
          · have hebeta : e < beta := lt_of_le_of_lt (le_max_right A e) hmaxlt
            have hev : e = g m := he.2.1 h2 hebeta
            have hwle : w ≤ e := by
              rcases le_or_lt acc alpha0 with h3 | h3
              · exact le_trans (H1 h3) (le_trans h3 (le_of_lt hlt))
              · exact (H2 h3) ▸ h1
            rw [hev] at hwle
            rw [hev]
            exact (max_eq_right hwle).symm

theorem abMinLoop_approx (f : Score → Score → Board → Score)
    (g : AIMove → Score) (b : Board)
    (hf : ∀ (al bt : Score) (m : AIMove), al < bt →
        approx al bt (g m) (f al bt (makeMove b m.src m.dst))) :
    ∀ (ms : List AIMove) (beta0 acc w alpha : Score),
      alpha < beta0 → alpha < acc →
      (beta0 ≤ acc → acc ≤ w) → (acc < beta0 → acc = w) →
      approx alpha beta0 (foldMinVal g w ms)
        (abMinLoop f b ms alpha (min beta0 acc) acc) := by
  intro ms
  induction ms with
  | nil =>
    intro beta0 acc w alpha hab hacc H1 H2
    refine ⟨fun hle => absurd hle (not_le.mpr hacc),
      fun _ hlt => H2 hlt, fun hge => H1 hge⟩
  | cons m rest ih =>
    intro beta0 acc w alpha hab hacc H1 H2
    have hAb : alpha < min beta0 acc := lt_min hab hacc
    have he := hf alpha (min beta0 acc) m hAb
    rw [abMinLoop, foldMinVal_cons]
    set B := min beta0 acc with hB
    set e := f alpha B (makeMove b m.src m.dst) with hedef
    by_cases hb : min B e ≤ alpha
    · rw [if_pos hb]
      have hbe : e ≤ alpha := by
        rcases min_le_iff.mp hb with h | h
        · exact absurd h (not_le.mpr hAb)
        · exact h
      have hacc_e : min acc e = e :=
        min_eq_right (le_of_lt (lt_of_le_of_lt hbe hacc))
      rw [hacc_e]
      have hgm : g m ≤ e := he.1 hbe
      have hT : foldMinVal g (min w (g m)) rest ≤ g m :=
        le_trans (foldMinVal_le g rest (min w (g m))) (min_le_right w (g m))
      have hbetae : e < beta0 := lt_of_le_of_lt hbe hab
      exact ⟨fun _ => le_trans hT hgm,
        fun hlt _ => absurd hlt (not_lt.mpr hbe),
        fun hge => absurd hge (not_le.mpr hbetae)⟩
    · rw [if_neg hb]
      have hminGt : alpha < min B e := not_le.mp hb
      have hBacc : B ≤ acc := min_le_right beta0 acc
      have hacc' : alpha < min acc e :=
        lt_of_lt_of_le hminGt (min_le_min hBacc (le_refl e))
      have hassoc : min B e = min beta0 (min acc e) := min_assoc beta0 acc e
      rw [hassoc]
      apply ih beta0 (min acc e) (min w (g m)) alpha hab hacc'
      · intro hle
        have hacc_le : beta0 ≤ acc := le_trans hle (min_le_left acc e)
        have he_le : beta0 ≤ e := le_trans hle (min_le_right acc e)
        have heB : B ≤ e := le_trans (min_le_left beta0 acc) he_le
        have hgme : e ≤ g m := he.2.2 heB
        exact min_le_min (H1 hacc_le) hgme
      · intro hlt
        rcases le_total acc e with h1 | h1
        · have hmax : min acc e = acc := min_eq_left h1
          rw [hmax] at hlt ⊢
          have haccw : acc = w := H2 hlt
          have hB2 : B = acc := min_eq_right (le_of_lt hlt)
          have hgme : e ≤ g m := he.2.2 (by rw [hB2]; exact h1)
          have hgacc : acc ≤ g m := le_trans h1 hgme
          rw [← haccw]
          exact (min_eq_left hgacc).symm
        · have hmax : min acc e = e := min_eq_right h1
          rw [hmax] at hlt ⊢
          rcases le_or_lt B e with h2 | h2
          · have hacc_lt : acc < beta0 := by
              by_contra hno
              push_neg at hno
              have hBeq : B = beta0 := min_eq_left hno
              rw [hBeq] at h2
              exact absurd hlt (not_lt.mpr h2)
            have heacc : acc ≤ e := by
              have hB2 : B = acc := min_eq_right (le_of_lt hacc_lt)
              rw [hB2] at h2; exact h2
            have heq : e = acc := le_antisymm h1 heacc
            have haccw : acc = w := H2 hacc_lt
            have hgme : e ≤ g m := he.2.2 h2
            rw [heq, ← haccw]
            exact (min_eq_left (heq ▸ hgme)).symm
          · have healpha : alpha < e := lt_of_lt_of_le hminGt (min_le_right B e)
            have hev : e = g m := he.2.1 healpha h2
            have hwle : e ≤ w := by
              rcases le_or_lt beta0 acc with h3 | h3
              · exact le_trans h1 (H1 h3)
              · exact (H2 h3) ▸ h1
            rw [hev] at hwle
            rw [hev]
            exact (min_eq_right hwle).symm

theorem minimax_approx :
    ∀ (d : Nat) (b : Board) (alpha beta : Score) (mz : Bool) (color : Color),
      alpha < beta →
      approx alpha beta (minimaxFull b d mz color)
        (minimax b d alpha beta mz color) := by
  intro d
  induction d with
  | zero =>
    intro b alpha beta mz color hab
    exact approx_self alpha beta _
  | succ n ih =>
    intro b alpha beta mz color hab
    cases mz with
    | true =>
      have hmx : minimax b (n + 1) alpha beta true color =
          (if isCheckmate b color then Score.of (-999999)
          else if getAllPossibleMoves b color = [] then Score.of 0
          else abMaxLoop (fun a bt cb => minimax cb n a bt false color) b
            (getAllPossibleMoves b color) alpha beta ⊥) := rfl
      have hmf : minimaxFull b (n + 1) true color =
          (if isCheckmate b color then Score.of (-999999)
          else if getAllPossibleMoves b color = [] then Score.of 0
          else ((getAllPossibleMoves b color).map
            (fun m => minimaxFull (makeMove b m.src m.dst) n false color)).foldl
            max ⊥) := rfl
      rw [hmx, hmf]
      by_cases hcm : isCheckmate b color
      · rw [if_pos hcm, if_pos hcm]
        exact approx_self alpha beta _
      · rw [if_neg hcm, if_neg hcm]
        by_cases hmv : getAllPossibleMoves b color = []
        · rw [if_pos hmv, if_pos hmv]
          exact approx_self alpha beta _
        · rw [if_neg hmv, if_neg hmv, List.foldl_map]
          have happ := abMaxLoop_approx
            (fun a bt cb => minimax cb n a bt false color)
            (fun m => minimaxFull (makeMove b m.src m.dst) n false color) b
            (fun al bt m halb => ih (makeMove b m.src m.dst) al bt false color halb)
            (getAllPossibleMoves b color)
            alpha ⊥ ⊥ beta hab (lt_of_le_of_lt bot_le hab)
            (fun _ => le_refl ⊥) (fun h => absurd h (not_lt_bot))
          rw [max_eq_left bot_le] at happ
          exact happ
    | false =>
      have hmx : minimax b (n + 1) alpha beta false color =
          (if isCheckmate b (opposite color) then Score.of 999999
          else if getAllPossibleMoves b (opposite color) = [] then Score.of 0
          else abMinLoop (fun a bt cb => minimax cb n a bt true color) b
            (getAllPossibleMoves b (opposite color)) alpha beta ⊤) := rfl
      have hmf : minimaxFull b (n + 1) false color =
          (if isCheckmate b (opposite color) then Score.of 999999
          else if getAllPossibleMoves b (opposite color) = [] then Score.of 0
          else ((getAllPossibleMoves b (opposite color)).map
            (fun m => minimaxFull (makeMove b m.src m.dst) n true color)).foldl
            min ⊤) := rfl
      rw [hmx, hmf]
      by_cases hcm : isCheckmate b (opposite color)
      · rw [if_pos hcm, if_pos hcm]
        exact approx_self alpha beta _
      · rw [if_neg hcm, if_neg hcm]
        by_cases hmv : getAllPossibleMoves b (opposite color) = []
        · rw [if_pos hmv, if_pos hmv]
          exact approx_self alpha beta _
        · rw [if_neg hmv, if_neg hmv, List.foldl_map]
          have happ := abMinLoop_approx
            (fun a bt cb => minimax cb n a bt true color)
            (fun m => minimaxFull (makeMove b m.src m.dst) n true color) b
            (fun al bt m halb => ih (makeMove b m.src m.dst) al bt true color halb)
            (getAllPossibleMoves b (opposite color))
            beta ⊤ ⊤ alpha hab (lt_of_lt_of_le hab le_top)
            (fun _ => le_refl ⊤) (fun h => absurd h (by simp))
          rw [min_eq_left le_top] at happ
          exact happ

theorem minimax_exact (b : Board) (d : Nat) (mz : Bool) (color : Color) :
    minimax b d ⊥ ⊤ mz color = minimaxFull b d mz color := by
  have h := minimax_approx d b ⊥ ⊤ mz color
    (lt_of_lt_of_le bot_lt_top (le_refl ⊤))
  by_cases h1 : minimax b d ⊥ ⊤ mz color ≤ ⊥
  · have hr : minimax b d ⊥ ⊤ mz color = ⊥ := le_bot_iff.mp h1
    have hv : minimaxFull b d mz color = ⊥ := le_bot_iff.mp (hr ▸ h.1 h1)
    rw [hr, hv]
  · by_cases h2 : (⊤ : Score) ≤ minimax b d ⊥ ⊤ mz color
    · have hr : minimax b d ⊥ ⊤ mz color = ⊤ := top_le_iff.mp h2
      have hv : minimaxFull b d mz color = ⊤ := top_le_iff.mp (hr ▸ h.2.2 h2)
      rw [hr, hv]
    · exact h.2.1 (not_le.mp h1) (not_le.mp h2)

theorem pickBest_congr (f g : AIMove → Score) (h : ∀ m, f m = g m) :
    ∀ (ms : List AIMove) (best : AIMove) (v : Score),
      pickBest f ms best v = pickBest g ms best v := by
  intro ms
  induction ms with
  | nil => intro best v; rfl
  | cons m rest ih =>
    intro best v
    rw [pickBest, pickBest, h m]
    by_cases hc : v < g m
    · rw [if_pos hc, if_pos hc]
      exact ih m (g m)
    · rw [if_neg hc, if_neg hc]
      exact ih best v

/-- C2: at medium and hard difficulty (where the random branch is never
taken) the move chosen by the alpha-beta search of getBestMove equals the
move chosen by the unpruned full minimax search at the same depth with
the same first-strictly-greatest tie-break. -/
theorem getBestMove_eq_full (b : Board) (color : Color)
    (difficulty : Difficulty) (rnd : RandSrc)
    (hd : difficulty = Difficulty.medium ∨ difficulty = Difficulty.hard) :
    getBestMove b color difficulty rnd =
      getBestMoveFull b color
        (if difficulty = Difficulty.medium then 2 else 3) := by
  rcases hd with rfl | rfl
  · simp only [getBestMove, getBestMoveFull]
    cases hmv : getAllPossibleMoves b color with
    | nil => rfl
    | cons m0 rest =>
      dsimp only
      have hcond : ¬ (Difficulty.medium = Difficulty.easy ∧
          rnd.r1 < (0.5 : ℚ)) := by simp
      rw [if_neg hcond]
      congr 1
      exact pickBest_congr _ _
        (fun mv => minimax_exact (makeMove b mv.src mv.dst) (2 - 1) false color)
        (m0 :: rest) m0 ⊥
  · simp only [getBestMove, getBestMoveFull]
    cases hmv : getAllPossibleMoves b color with
    | nil => rfl
    | cons m0 rest =>
      dsimp only
      have hcond : ¬ (Difficulty.hard = Difficulty.easy ∧
          rnd.r1 < (0.5 : ℚ)) := by simp
      rw [if_neg hcond]
      congr 1
      exact pickBest_congr _ _
        (fun mv => minimax_exact (makeMove b mv.src mv.dst) (3 - 1) false color)
        (m0 :: rest) m0 ⊥

theorem getBestMove_eq_full_witness :
    (Difficulty.medium = Difficulty.medium ∨
        Difficulty.medium = Difficulty.hard) ∧
    getBestMove knBoard Color.white Difficulty.medium ⟨0, 0, 0, 0⟩ =
      getBestMoveFull knBoard Color.white
        (if Difficulty.medium = Difficulty.medium then 2 else 3) :=
  ⟨Or.inl rfl,
    getBestMove_eq_full knBoard Color.white Difficulty.medium ⟨0, 0, 0, 0⟩
      (Or.inl rfl)⟩
